import Mathlib

/-!
Shallow embedding of the kerosene actor runtime core (Rust) and proofs of
the specification claims about it.  Each definition mirrors one function of
the source tree: `ActorControlBlock::add_link` / `remove_link`
(src/actor/control_block.rs), `HydratedActor::poll` (src/actor.rs),
`MessageQueue::remove_matching` (src/actor/message_queue.rs),
`Inbox::push` / `pop` (src/actor/inbox.rs) over the bounded `Queue`
(src/queue.rs), `Child::should_restart` (src/supervisor.rs),
`Timer::run`'s delivery step (src/timer.rs), `recv_matching`'s poll
closure (src/global.rs), `Worker::run_actor`'s termination fan-out
(src/worker.rs), `Scheduler::balance` (src/scheduler.rs) and the
`is_scheduled` scheduling discipline (src/scheduler.rs, src/worker.rs).
-/

namespace Kerosene

/-- `Pid(pub u64)` from src/actor/references.rs. -/
structure Pid where
  val : Nat
deriving DecidableEq, Repr

/-- `Pid::invalid()`, the reserved sentinel `u64::MAX`. -/
def Pid.invalid : Pid := ⟨2 ^ 64 - 1⟩

/-- `enum Exit` from src/actor.rs. -/
inductive Exit where
  | normal
  | panic (msg : String)
  | shutdown
  | killed
deriving DecidableEq, Repr

/-- `enum Signal` from src/actor.rs; the opaque `Box<dyn Any + Send>`
message payload is the type parameter `α`. -/
inductive Signal (α : Type) where
  | exit (sender : Pid) (reason : Exit)
  | kill
  | link (p : Pid)
  | unlink (p : Pid)
  | timerFired
  | message (m : α)
deriving DecidableEq, Repr

/-- `ActorControlBlock::MAX_LINKS` (src/actor/control_block.rs). -/
def MAX_LINKS : Nat := 32

/-- `ActorControlBlock::add_link` (src/actor/control_block.rs): scan the
fixed `[Pid; MAX_LINKS]` array for the first `Pid::invalid()` slot and
store the pid there; `Err(())` when every slot is occupied. The array is
modelled as the list of its slots. -/
def addLink (links : List Pid) (pid : Pid) : Except Unit (List Pid) :=
  match links with
  | [] => .error ()
  | slot :: rest =>
    if slot = Pid.invalid then
      .ok (pid :: rest)
    else
      match addLink rest pid with
      | .ok rest' => .ok (slot :: rest')
      | .error () => .error ()

/-- `ActorControlBlock::remove_link` (src/actor/control_block.rs): scan for
the first slot equal to `pid` and reset it to `Pid::invalid()`. -/
def removeLink (links : List Pid) (pid : Pid) : Except Unit (List Pid) :=
  match links with
  | [] => .error ()
  | slot :: rest =>
    if slot = pid then
      .ok (Pid.invalid :: rest)
    else
      match removeLink rest pid with
      | .ok rest' => .ok (slot :: rest')
      | .error () => .error ()

/-- An entry of the per-actor message queue: either a `TrapExitMessage`
pushed by `poll` when exits are trapped, or a user message (src/actor.rs). -/
inductive QMsg (α : Type) where
  | trapExit (pid : Pid) (reason : Exit)
  | user (m : α)
deriving DecidableEq, Repr

/-- The actor-local state that `HydratedActor::poll`'s signal handling
touches: the link array, the `trap_exit` flag and the message queue. -/
structure ActorS (α : Type) where
  links : List Pid
  trapExit : Bool
  messages : List (QMsg α)
deriving DecidableEq, Repr

/-- The `match signal` arm of `HydratedActor::poll` (src/actor.rs lines
62-88): returns the early-return exit reason (if any) and the updated
actor state.  `Link`/`Unlink` discard the `Result` of
`add_link`/`remove_link` (`let _ = ...`), leaving the links unchanged on
error. -/
def handleSignal (s : ActorS α) (sig : Signal α) : Option Exit × ActorS α :=
  match sig with
  | .exit pid reason =>
    if s.trapExit then
      (none, { s with messages := s.messages ++ [.trapExit pid reason] })
    else if reason ≠ Exit.normal then
      (some reason, s)
    else
      (none, s)
  | .kill => (some Exit.killed, s)
  | .link p =>
    match addLink s.links p with
    | .ok links' => (none, { s with links := links' })
    | .error () => (none, s)
  | .unlink p =>
    match removeLink s.links p with
    | .ok links' => (none, { s with links := links' })
    | .error () => (none, s)
  | .timerFired => (none, s)
  | .message m => (none, { s with messages := s.messages ++ [.user m] })

/-- `QUEUE_SIZE` (src/actor/inbox.rs): capacity of the bounded ring. -/
def QUEUE_SIZE : Nat := 1024

/-- `Queue::push` (src/queue.rs): fails returning the value when
`head - tail >= capacity` (the ring is full), otherwise appends.  The ring
contents are modelled as the list of occupied slots in FIFO order. -/
def queuePush (buf : List α) (value : α) : Except α (List α) :=
  if QUEUE_SIZE ≤ buf.length then
    .error value
  else
    .ok (buf ++ [value])

/-- `Queue::pop` (src/queue.rs): returns the slot at `tail` when one is
published, leaving the ring unchanged when empty. -/
def queuePop (buf : List α) : Option α × List α :=
  match buf with
  | [] => (none, [])
  | x :: rest => (some x, rest)

/-- The `Inbox` state (src/actor/inbox.rs): bounded ring plus unbounded
mutex-guarded overflow `VecDeque`; `overflow_count` is the length of
`overflow`. -/
structure Inbox (α : Type) where
  ring : List α
  overflow : List α
deriving DecidableEq, Repr

/-- All signals currently held by the inbox. -/
def Inbox.contents (ib : Inbox α) : List α := ib.ring ++ ib.overflow

/-- `Inbox::push` (src/actor/inbox.rs): try the ring; on `Err` append to the
overflow queue.  Total: no signal is ever refused or dropped. -/
def Inbox.push (ib : Inbox α) (message : α) : Inbox α :=
  match queuePush ib.ring message with
  | .ok ring' => { ib with ring := ring' }
  | .error message => { ib with overflow := ib.overflow ++ [message] }

/-- The drain loop inside `Inbox::pop` (src/actor/inbox.rs): move overflow
items into the ring front-first until the ring refuses one (which is put
back at the front of the overflow). -/
def drainOverflow (ring : List α) (overflow : List α) : List α × List α :=
  match overflow with
  | [] => (ring, [])
  | item :: rest =>
    match queuePush ring item with
    | .ok ring' => drainOverflow ring' rest
    | .error item => (ring, item :: rest)

/-- `Inbox::pop` (src/actor/inbox.rs): prefer the ring; when it is empty and
the overflow count is zero return `None`; otherwise drain overflow into the
ring and pop the ring. -/
def Inbox.pop (ib : Inbox α) : Option α × Inbox α :=
  match queuePop ib.ring with
  | (some message, ring') => (some message, { ib with ring := ring' })
  | (none, _) =>
    if ib.overflow.length = 0 then
      (none, ib)
    else
      let (ring', overflow') := drainOverflow ib.ring ib.overflow
      let (res, ring'') := queuePop ring'
      (res, { ring := ring'', overflow := overflow' })

/-- Iterate `Inbox.pop` `fuel` times, collecting the returned signals. -/
def Inbox.popAll (fuel : Nat) (ib : Inbox α) : List α :=
  match fuel with
  | 0 => []
  | n + 1 =>
    match Inbox.pop ib with
    | (none, _) => []
    | (some x, ib') => x :: Inbox.popAll n ib'

/-- `HydratedActor::poll` (src/actor.rs lines 61-109): drain one signal from
the inbox and apply it; an early `return Some(reason)` skips stepping the
user task, otherwise the user task is stepped once — its outcome
(`Poll::Ready(exit)` as `some exit`, `Poll::Pending` as `none`) is the
abstract parameter `futureResult`. -/
def poll (futureResult : Option Exit) (ib : Inbox (Signal α)) (s : ActorS α) :
    Option Exit × Inbox (Signal α) × ActorS α :=
  match Inbox.pop ib with
  | (some sig, ib') =>
    match handleSignal s sig with
    | (some reason, s') => (some reason, ib', s')
    | (none, s') => (futureResult, ib', s')
  | (none, ib') => (futureResult, ib', s)

/-- `Iterator::position` as used by `MessageQueue::remove_matching`
(src/actor/message_queue.rs): index of the first element satisfying the
matcher. -/
def position (matcher : α → Bool) : List α → Option Nat
  | [] => none
  | x :: xs =>
    if matcher x then some 0
    else (position matcher xs).map (· + 1)

/-- `MessageQueue::remove_matching` (src/actor/message_queue.rs): find the
position of the first match and remove it in place (`VecDeque::remove`
returns the removed element); `None` and an unchanged queue otherwise. -/
def removeMatching (matcher : α → Bool) (q : List α) : Option α × List α :=
  match position matcher q with
  | some index => (q[index]?, q.eraseIdx index)
  | none => (none, q)

/-- `RestartPolicy` (src/supervisor.rs). -/
inductive RestartPolicy where
  | permanent
  | transient
  | temporary
deriving DecidableEq, Repr

/-- `Child::should_restart` (src/supervisor.rs lines 32-38). -/
def shouldRestart (policy : RestartPolicy) (reason : Exit) : Bool :=
  match policy with
  | .permanent => true
  | .transient =>
    !(match reason with
      | Exit.normal | Exit.shutdown => true
      | _ => false)
  | .temporary => false

/-- Outcome of one execution of the `poll_fn` closure in `recv_matching`
(src/global.rs lines 312-326). -/
inductive RecvPoll (α : Type) where
  | readyTimeout
  | ready (m : α)
  | pending
deriving DecidableEq, Repr

/-- The `poll_fn` closure body of `recv_matching` (src/global.rs lines
312-326): the elapsed-time check against the timeout comes first and
returns `Err(RecvError::Timeout)`; only otherwise is the message queue
scanned with `remove_matching`.  Times are instants in an abstract clock;
`elapsed` is `now.elapsed()` at this poll. -/
def recvPoll (timeout : Option Nat) (elapsed : Nat) (matcher : α → Bool)
    (queue : List α) : RecvPoll α × List α :=
  match timeout with
  | some t =>
    if elapsed ≥ t then
      (.readyTimeout, queue)
    else
      match removeMatching matcher queue with
      | (some m, queue') => (.ready m, queue')
      | (none, queue') => (.pending, queue')
  | none =>
    match removeMatching matcher queue with
    | (some m, queue') => (.ready m, queue')
    | (none, queue') => (.pending, queue')

/-- A timer heap `Entry` (src/timer.rs): target pid, expiry instant
(abstract clock) and the payload signal. -/
structure Entry (α : Type) where
  pid : Pid
  expireAt : Nat
  message : Signal α
deriving DecidableEq, Repr

/-- `BinaryHeap::peek` under the reversed `Ord` on `Entry` (src/timer.rs):
an entry with minimal `expire_at`. -/
def peekMin (heap : List (Entry α)) : Option (Entry α) :=
  match heap with
  | [] => none
  | e :: rest =>
    match peekMin rest with
    | none => some e
    | some e' => if e.expireAt ≤ e'.expireAt then some e else some e'

/-- What one iteration of the inner loop of `Timer::run` does
(src/timer.rs lines 91-111). -/
inductive TimerAct (α : Type) where
  /-- Heap empty: fall through to `cond.wait`. -/
  | waitEmpty
  /-- Minimal entry not yet expired: `cond.wait_timeout(expire_at - now)`. -/
  | waitUntil (t : Nat)
  /-- Minimal entry expired: pop and deliver.  `sent` is the list of
  `send_signal` calls performed, `sched` the list of
  `scheduler.schedule` calls. -/
  | deliver (e : Entry α) (sent : List (Pid × Signal α)) (sched : List Pid)

/-- One iteration of the inner loop of `Timer::run` (src/timer.rs lines
91-111): peek the minimal entry; if `expire_at <= now`, pop it, call
`scheduler.schedule(pid)`, and only when the registry still knows the pid
send the payload signal and schedule again; otherwise wait.  `registry` is
the set of currently registered pids. -/
def timerStep [DecidableEq α] (now : Nat) (heap : List (Entry α))
    (registry : List Pid) : TimerAct α × List (Entry α) :=
  match peekMin heap with
  | none => (.waitEmpty, heap)
  | some e =>
    if e.expireAt ≤ now then
      if e.pid ∈ registry then
        (.deliver e [(e.pid, e.message)] [e.pid, e.pid], heap.erase e)
      else
        (.deliver e [] [e.pid], heap.erase e)
    else
      (.waitUntil e.expireAt, heap)

/-- A registry entry as the exit fan-out sees it: a live actor's pid and
its signal inbox (the sequence of signals `send_signal` delivered to it). -/
structure RegEntry (α : Type) where
  pid : Pid
  inbox : List (Signal α)
deriving DecidableEq, Repr

/-- `Registry::lookup_pid` (src/registry.rs) over the modelled table: the
entry keyed `p`, if any (a `HashMap` has at most one entry per key). -/
def lookupReg : List (RegEntry α) → Pid → Option (RegEntry α)
  | [], _ => none
  | e :: rest, p => if e.pid = p then some e else lookupReg rest p

/-- `Registry::remove` (src/registry.rs): drop the entry keyed `p`. -/
def removeReg : List (RegEntry α) → Pid → List (RegEntry α)
  | [], _ => []
  | e :: rest, p =>
    if e.pid = p then removeReg rest p else e :: removeReg rest p

/-- `HydratedActorBase::send_signal` (src/actor.rs): append `sig` to the
inbox of the entry keyed `p`. -/
def pushSignal : List (RegEntry α) → Pid → Signal α → List (RegEntry α)
  | [], _, _ => []
  | e :: rest, p, sig =>
    if e.pid = p then
      { e with inbox := e.inbox ++ [sig] } :: pushSignal rest p sig
    else
      e :: pushSignal rest p sig

/-- The inbox of pid `b` as recorded in the registry (empty when absent). -/
def inboxOf (reg : List (RegEntry α)) (b : Pid) : List (Signal α) :=
  match lookupReg reg b with
  | some e => e.inbox
  | none => []

/-- The body of the `for linked in links` loop in the `Some(exit)` arm of
`Worker::run_actor` (src/worker.rs lines 177-183): when the linked pid is
still registered, deliver one `Signal::Exit(dying, reason)` to it and call
`scheduler.schedule(linked)` (recorded in the second component); a lookup
miss is silently skipped. -/
def fanoutStep (dying : Pid) (reason : Exit)
    (acc : List (RegEntry α) × List Pid) (linked : Pid) :
    List (RegEntry α) × List Pid :=
  match lookupReg acc.1 linked with
  | some _ => (pushSignal acc.1 linked (Signal.exit dying reason), acc.2 ++ [linked])
  | none => acc

/-- The `Some(exit)` arm of `Worker::run_actor` (src/worker.rs lines
166-184): snapshot the links, remove the dying actor from the registry,
then run the fan-out loop over the snapshot.  Returns the updated registry
and the list of `schedule` calls.  (The port-closing loop touches only the
worker-local port table and is omitted: it reads neither the registry nor
any inbox.) -/
def terminationFanout (dying : Pid) (reason : Exit) (links : List Pid)
    (reg : List (RegEntry α)) : List (RegEntry α) × List Pid :=
  links.foldl (fanoutStep dying reason) (removeReg reg dying, [])

/-- `Mode` (src/migration.rs): migration slot mode. -/
inductive Mode where
  | free
  | push
  | pull
deriving DecidableEq, Repr

/-- `Parameters` (src/migration.rs).  `Mode::None` is rendered `Mode.free`
(`none` would shadow `Option.none` in pattern positions). -/
structure Parameters where
  target : Nat
  mode : Mode
  balance : Nat
deriving DecidableEq, Repr

/-- `Parameters::none()` (src/migration.rs). -/
def Parameters.init : Parameters := ⟨0, Mode.free, 0⟩

/-- Stable insertion preserving the original order of equal keys, the
behaviour of `sort_by_key` on the `(index, length)` pairs. -/
def insertByLen (x : Nat × Nat) : List (Nat × Nat) → List (Nat × Nat)
  | [] => [x]
  | y :: ys => if y.2 < x.2 then y :: insertByLen x ys else x :: y :: ys

/-- `max_queue_lengths.sort_by_key(|&(_, length)| length)`
(src/scheduler.rs line 289): stable sort of the enumerated lengths. -/
def sortByLen : List (Nat × Nat) → List (Nat × Nat)
  | [] => []
  | x :: xs => insertByLen x (sortByLen xs)

/-- The first walk of `Scheduler::balance` (src/scheduler.rs lines 295-312):
`while max_queue_lengths[i].1 < average { parameters[index] = Pull{..};
i += 1; j -= 1; if max_queue_lengths[j].1 <= average { j = n - 1 } }`.
A `none` result is a Rust panic: the `while` condition indexing `i` out of
bounds, or `j -= 1` underflowing at `j = 0` (whose wrapped value is then
indexed out of bounds). -/
def balanceLoop1 (sorted : List (Nat × Nat)) (avg n : Nat)
    (params : List Parameters) (i j : Nat) : Option (List Parameters) :=
  match hi : sorted.get? i with
  | none => none
  | some si =>
    if si.2 < avg then
      match sorted.get? j with
      | none => none
      | some sj =>
        let params' := params.set si.1 ⟨sj.1, Mode.pull, avg⟩
        if j = 0 then none
        else
          match sorted.get? (j - 1) with
          | none => none
          | some sj' =>
            balanceLoop1 sorted avg n params' (i + 1)
              (if sj'.2 ≤ avg then n - 1 else j - 1)
    else
      some params
termination_by sorted.length - i
decreasing_by
  have : i < sorted.length := by
    have := List.get?_eq_some.mp hi
    exact this.1
  omega

/-- The second walk of `Scheduler::balance` (src/scheduler.rs lines
314-330): `while max_queue_lengths[j].1 > average { parameters[index] =
Push{..}; j -= 1; i += 1; if max_queue_lengths[i].1 >= average { i = 0 } }`.
A `none` result is a Rust panic, as in `balanceLoop1`. -/
def balanceLoop2 (sorted : List (Nat × Nat)) (avg : Nat)
    (params : List Parameters) (i j : Nat) : Option (List Parameters) :=
  match sorted.get? j with
  | none => none
  | some sj =>
    if avg < sj.2 then
      match sorted.get? i with
      | none => none
      | some si =>
        let params' := params.set sj.1 ⟨si.1, Mode.push, avg⟩
        if j = 0 then none
        else
          match sorted.get? (i + 1) with
          | none => none
          | some si' =>
            balanceLoop2 sorted avg params' (if avg ≤ si'.2 then 0 else i + 1) (j - 1)
    else
      some params
termination_by j
decreasing_by omega

/-- `Scheduler::balance` (src/scheduler.rs lines 269-344) up to the final
per-worker store: snapshot of the workers' `max_queue_length`s in worker
order, mean plus margin 4, stable sort by length, then the two walks.
`none` is a Rust panic. -/
def balance (lengths : List Nat) : Option (List Parameters) :=
  let workerCount := lengths.length
  if workerCount = 0 then none
  else
    let avg := lengths.sum / workerCount + 4
    let sorted := sortByLen lengths.enum
    let params := List.replicate workerCount Parameters.init
    match balanceLoop1 sorted avg workerCount params 0 (workerCount - 1) with
    | none => none
    | some params => balanceLoop2 sorted avg params 0 (workerCount - 1)

/-- The shared scheduling state the `is_scheduled` discipline protects:
`scheduled` is the set of pids whose `is_scheduled` flag is true, `queues`
the per-worker run queues (front = next to pop), and `held` the pids a
worker has popped but whose flag `run_actor` has not yet cleared. -/
structure SchedState where
  scheduled : List Pid
  queues : List (List Pid)
  held : List Pid
deriving DecidableEq, Repr

/-- Push `p` onto run queue `w` (`RunQueue::push`, src/worker/run_queue.rs). -/
def appendAt (queues : List (List Pid)) (w : Nat) (p : Pid) : List (List Pid) :=
  queues.set w (queues.getD w [] ++ [p])

/-- Number of occurrences of `p` across all run queues. -/
def countQ (s : SchedState) (p : Pid) : Nat :=
  (s.queues.map (fun q => q.count p)).sum

/-- Occurrences of `p` in queues or held by a worker. -/
def totalCount (s : SchedState) (p : Pid) : Nat :=
  countQ s p + s.held.count p

/-- The atomic steps of the code paths that touch `is_scheduled` and the
run queues (src/scheduler.rs `schedule`/`try_steal`/`try_push`/`try_pull`,
src/worker.rs `run`/`run_actor`, src/actor/control_block.rs
`try_schedule`). -/
inductive SchedStep : SchedState → SchedState → Prop where
  /-- `Scheduler::schedule` / the re-queue in `run_actor`: the
  `try_schedule` swap observed `is_scheduled == false`, so the pid is
  pushed onto worker `w`'s run queue. -/
  | scheduleWin (s : SchedState) (p : Pid) (w : Nat) (hw : w < s.queues.length)
      (hp : p ∉ s.scheduled) :
      SchedStep s ⟨p :: s.scheduled, appendAt s.queues w p, s.held⟩
  /-- `Scheduler::schedule` winning the swap but finding no active worker
  slot: returns without pushing. -/
  | scheduleWinNoWorker (s : SchedState) (p : Pid) (hp : p ∉ s.scheduled) :
      SchedStep s ⟨p :: s.scheduled, s.queues, s.held⟩
  /-- `try_schedule` observed `is_scheduled == true`: no push. -/
  | scheduleLose (s : SchedState) (p : Pid) (hp : p ∈ s.scheduled) :
      SchedStep s s
  /-- A worker pops a pid from a run queue (its own in `Worker::run`, a
  peer's in `try_steal`) and enters `run_actor` with it. -/
  | popForRun (s : SchedState) (w : Nat) (hw : w < s.queues.length)
      (p : Pid) (rest : List Pid) (hq : s.queues.getD w [] = p :: rest) :
      SchedStep s ⟨s.scheduled, s.queues.set w rest, p :: s.held⟩
  /-- `run_actor` on a held pid: `is_scheduled.store(false)` before
  polling, after which the worker no longer holds the pid. -/
  | runActor (s : SchedState) (p : Pid) (hp : p ∈ s.held) :
      SchedStep s ⟨s.scheduled.erase p, s.queues, s.held.erase p⟩
  /-- `try_push` / `try_pull` moving the head of queue `w₁` to queue `w₂`
  (with `w₂ = w₁` this is the put-back of a running actor, also the
  `try_steal` put-back). -/
  | migrate (s : SchedState) (w₁ w₂ : Nat) (hw₁ : w₁ < s.queues.length)
      (hw₂ : w₂ < s.queues.length) (p : Pid) (rest : List Pid)
      (hq : s.queues.getD w₁ [] = p :: rest) :
      SchedStep s ⟨s.scheduled, appendAt (s.queues.set w₁ rest) w₂ p, s.held⟩

/-- States reachable from boot (all flags false, all queues empty). -/
inductive SchedReachable : SchedState → Prop where
  | init (n : Nat) : SchedReachable ⟨[], List.replicate n [], []⟩
  | step {s s' : SchedState} : SchedReachable s → SchedStep s s' → SchedReachable s'

/-- The inductive invariant: the `is_scheduled` set has no duplicates, a
pid occurs at most once across queues and held slots, and a pid with
`is_scheduled == false` is nowhere at all. -/
def SchedInv (s : SchedState) : Prop :=
  s.scheduled.Nodup ∧
  ∀ p, totalCount s p ≤ 1 ∧ (p ∉ s.scheduled → totalCount s p = 0)

/-! ## Claim C8: the supervisor restart-policy table -/

/-- C8: `Child::should_restart` follows the policy table — Permanent
restarts on Normal, Shutdown and any other reason; Transient restarts
exactly when the reason is neither Normal nor Shutdown; Temporary never
restarts. -/
theorem c8_should_restart_table (reason : Exit) :
    shouldRestart RestartPolicy.permanent reason = true ∧
    (shouldRestart RestartPolicy.transient reason = true ↔
      (reason ≠ Exit.normal ∧ reason ≠ Exit.shutdown)) ∧
    shouldRestart RestartPolicy.temporary reason = false := by
  cases reason <;> simp [shouldRestart]

/-! ## Claim C4: `add_link` at capacity -/

/-- A link array with all `MAX_LINKS` slots occupied. -/
def fullLinks : List Pid := (List.range MAX_LINKS).map Pid.mk

/-- C4 counterexample: with every slot of the fast-path array occupied,
`add_link` returns `Err(())` — it does not store the pid in any overflow
list and does not succeed. -/
theorem c4_counterexample :
    addLink fullLinks ⟨100⟩ = Except.error () := by rfl

/-- C4 (amended): for every actor whose link array is at capacity (no slot
holds `Pid::invalid()`), a further `add_link` returns `Err(())` and the
link is refused; no overflow list exists. -/
theorem c4_addLink_full_refused (links : List Pid) (p : Pid)
    (h : ∀ q ∈ links, q ≠ Pid.invalid) :
    addLink links p = Except.error () := by
  induction links with
  | nil => rfl
  | cons slot rest ih =>
    have hslot : slot ≠ Pid.invalid := h slot (List.mem_cons_self _ _)
    have hrest : addLink rest p = Except.error () :=
      ih (fun q hq => h q (List.mem_cons_of_mem _ hq))
    rw [addLink, if_neg hslot, hrest]

/-- C4 witness: `c4_addLink_full_refused` at the concrete full array. -/
theorem c4_addLink_full_refused_witness :
    (∀ q ∈ fullLinks, q ≠ Pid.invalid) ∧
    addLink fullLinks ⟨100⟩ = Except.error () := by
  have h : ∀ q ∈ fullLinks, q ≠ Pid.invalid := by decide
  exact ⟨h, c4_addLink_full_refused fullLinks ⟨100⟩ h⟩

/-! ## Claim C2: `poll` on an `Exit(from, reason)` signal -/

/-- C2 counterexample: an actor whose link array holds the sender `5`,
with `trap_exit` false, receives `Exit(5, Killed)`; `poll` returns
`Killed` but leaves `5` in the links — the claimed removal of `from` from
the links set does not happen. -/
theorem c2_counterexample :
    (poll (α := Nat) none ⟨[Signal.exit ⟨5⟩ Exit.killed], []⟩
        ⟨[⟨5⟩, Pid.invalid], false, []⟩) =
      (some Exit.killed, ⟨[], []⟩, ⟨[⟨5⟩, Pid.invalid], false, []⟩) := by rfl

/-- C2 (amended): whenever `poll` drains an `Exit(from, reason)` signal
from the inbox, the links set is left unchanged (`from` is not removed);
if `trap_exit` is set a `{from, reason}` trap-exit message is appended to
the message queue (and the drained signal causes no termination), otherwise
`poll` returns `reason` — terminating the actor — exactly when `reason`
is not `Normal`. -/
theorem c2_poll_exit_signal {α : Type} (futureResult : Option Exit)
    (ib ib' : Inbox (Signal α)) (s : ActorS α) (p : Pid) (r : Exit)
    (h : Inbox.pop ib = (some (Signal.exit p r), ib')) :
    (poll futureResult ib s).2.2.links = s.links ∧
    (s.trapExit = true →
      (poll futureResult ib s).1 = futureResult ∧
      (poll futureResult ib s).2.2.messages = s.messages ++ [QMsg.trapExit p r]) ∧
    (s.trapExit = false →
      (poll futureResult ib s).2.2.messages = s.messages ∧
      (poll futureResult ib s).1 =
        if r = Exit.normal then futureResult else some r) := by
  unfold poll
  rw [h]
  cases htrap : s.trapExit with
  | true =>
    simp [handleSignal, htrap]
  | false =>
    by_cases hr : r = Exit.normal <;> simp [handleSignal, htrap, hr]

/-- C2 witness: `c2_poll_exit_signal` at a concrete inbox and actor
state. -/
theorem c2_poll_exit_signal_witness :
    (poll (α := Nat) none ⟨[Signal.exit ⟨7⟩ Exit.shutdown], []⟩
        ⟨[⟨7⟩], false, []⟩).2.2.links = [⟨7⟩] ∧
    (poll (α := Nat) none ⟨[Signal.exit ⟨7⟩ Exit.shutdown], []⟩
        ⟨[⟨7⟩], false, []⟩).1 = some Exit.shutdown := by
  have h := c2_poll_exit_signal (α := Nat) none
    ⟨[Signal.exit ⟨7⟩ Exit.shutdown], []⟩ ⟨[], []⟩
    ⟨[⟨7⟩], false, []⟩ ⟨7⟩ Exit.shutdown (by rfl)
  exact ⟨h.1, by rw [(h.2.2 rfl).2]; rfl⟩

/-! ## Claim C10: timeout check precedes the queue scan in `recv_matching` -/

/-- C10: in the `poll_fn` of `recv_matching` the elapsed-time check comes
first: once the elapsed time has reached the timeout, the poll returns
`Timeout` and the message queue is not scanned — even when a matching
envelope is already queued. -/
theorem c10_recv_timeout_precedence {α : Type} (t elapsed : Nat)
    (matcher : α → Bool) (queue : List α) (h : t ≤ elapsed) :
    recvPoll (some t) elapsed matcher queue = (RecvPoll.readyTimeout, queue) := by
  unfold recvPoll
  simp [h]

/-- C10 witness: `c10_recv_timeout_precedence` with an already-matching
message `5` in the queue: the poll still returns `Timeout`. -/
theorem c10_recv_timeout_precedence_witness :
    recvPoll (some 1) 2 (fun m => m == 5) [(5 : Nat)] =
      (RecvPoll.readyTimeout, [5]) ∧
    (fun (m : Nat) => m == 5) 5 = true := by
  exact ⟨c10_recv_timeout_precedence 1 2 _ _ (by decide), by decide⟩

/-! ## Claim C9: the timer never delivers early, drops dead targets -/

/-- C9: whenever the timer loop pops and delivers an entry, the observed
instant `now` is at least the entry's `expire_at`; the entry is removed
from the heap and never re-inserted; if the target pid is still registered
exactly its payload signal is sent (and the pid scheduled), and if the pid
is gone nothing is sent — the entry is dropped silently without retry. -/
theorem c9_timer_delivery {α : Type} [DecidableEq α] (now : Nat)
    (heap heap' : List (Entry α)) (registry : List Pid) (e : Entry α)
    (sent : List (Pid × Signal α)) (sched : List Pid)
    (h : timerStep now heap registry = (TimerAct.deliver e sent sched, heap')) :
    e.expireAt ≤ now ∧
    heap' = heap.erase e ∧
    (e.pid ∈ registry → sent = [(e.pid, e.message)] ∧ sched = [e.pid, e.pid]) ∧
    (e.pid ∉ registry → sent = [] ∧ sched = [e.pid]) := by
  unfold timerStep at h
  split at h
  · exact absurd h (by simp)
  · rename_i e0 _
    split_ifs at h with hexp hmem
    · simp only [Prod.mk.injEq, TimerAct.deliver.injEq] at h
      obtain ⟨⟨he, hsent, hsched⟩, hheap⟩ := h
      subst he
      exact ⟨hexp, hheap.symm, fun _ => ⟨hsent.symm, hsched.symm⟩,
        fun hm => absurd hmem hm⟩
    · simp only [Prod.mk.injEq, TimerAct.deliver.injEq] at h
      obtain ⟨⟨he, hsent, hsched⟩, hheap⟩ := h
      subst he
      exact ⟨hexp, hheap.symm, fun hm => absurd hm hmem,
        fun _ => ⟨hsent.symm, hsched.symm⟩⟩
    · exact absurd h (by simp)

/-- C9 witness: `c9_timer_delivery` on a heap holding one expired entry
whose target pid is no longer registered. -/
theorem c9_timer_delivery_witness :
    Entry.expireAt (α := Nat) ⟨⟨1⟩, 5, Signal.timerFired⟩ ≤ 7 ∧
    ([] : List (Entry Nat)) =
      [(⟨⟨1⟩, 5, Signal.timerFired⟩ : Entry Nat)].erase ⟨⟨1⟩, 5, Signal.timerFired⟩ := by
  have h := c9_timer_delivery (α := Nat) 7 [⟨⟨1⟩, 5, Signal.timerFired⟩] []
    ([] : List Pid) ⟨⟨1⟩, 5, Signal.timerFired⟩ [] [⟨1⟩] (by rfl)
  exact ⟨h.1, h.2.1⟩

/-! ## Claim C7: `remove_matching` selective-receive semantics -/

/-- `position` finds no index exactly when `find?` finds no element. -/
theorem position_eq_none_iff (matcher : α → Bool) (l : List α) :
    position matcher l = none ↔ l.find? matcher = none := by
  induction l with
  | nil => simp [position]
  | cons x xs ih =>
    by_cases hm : matcher x
    · simp [position, hm, List.find?_cons_of_pos _ hm]
    · simp [position, hm, List.find?_cons_of_neg _ hm, ih]

/-- C7: `remove_matching` returns the first envelope satisfying the
predicate (`find?`-first semantics) or `none` when nothing matches; the
remaining queue is a sublist of the original (so all unmatched envelopes
keep their relative order); exactly the returned envelope is removed; and
on no match the queue is untouched. -/
theorem c7_remove_matching {α : Type} (matcher : α → Bool) (q : List α) :
    (removeMatching matcher q).1 = q.find? matcher ∧
    (removeMatching matcher q).2.Sublist q ∧
    (∀ a, q.find? matcher = some a →
      q.Perm (a :: (removeMatching matcher q).2)) ∧
    (q.find? matcher = none → (removeMatching matcher q).2 = q) := by
  induction q with
  | nil => simp [removeMatching, position]
  | cons x xs ih =>
    by_cases hm : matcher x
    · have h1 : removeMatching matcher (x :: xs) = (some x, xs) := by
        simp [removeMatching, position, hm]
      rw [h1]
      refine ⟨by simp [List.find?_cons_of_pos _ hm], ?_, ?_, ?_⟩
      · exact (List.Sublist.refl xs).cons x
      · intro a ha
        rw [List.find?_cons_of_pos _ hm] at ha
        cases ha
        exact List.Perm.refl _
      · intro ha
        rw [List.find?_cons_of_pos _ hm] at ha
        exact absurd ha (by simp)
    · cases hp : position matcher xs with
      | none =>
        have hf : xs.find? matcher = none := (position_eq_none_iff matcher xs).mp hp
        have h1 : removeMatching matcher (x :: xs) = (none, x :: xs) := by
          simp [removeMatching, position, hm, hp]
        rw [h1]
        refine ⟨by simp [List.find?_cons_of_neg _ hm, hf], List.Sublist.refl _, ?_,
          fun _ => rfl⟩
        intro a ha
        rw [List.find?_cons_of_neg _ hm, hf] at ha
        exact absurd ha (by simp)
      | some i =>
        have h1 : removeMatching matcher (x :: xs) = (xs[i]?, x :: xs.eraseIdx i) := by
          simp [removeMatching, position, hm, hp]
        have h2 : removeMatching matcher xs = (xs[i]?, xs.eraseIdx i) := by
          simp [removeMatching, hp]
        rw [h1]
        obtain ⟨ih1, ih2, ih3, ih4⟩ := ih
        rw [h2] at ih1 ih2 ih3 ih4
        dsimp only at ih1 ih2 ih3 ih4 ⊢
        refine ⟨by simpa [List.find?_cons_of_neg _ hm] using ih1, ?_, ?_, ?_⟩
        · exact List.Sublist.cons₂ x ih2
        · intro a ha
          rw [List.find?_cons_of_neg _ hm] at ha
          exact ((ih3 a ha).cons x).trans (List.Perm.swap a x (xs.eraseIdx i))
        · intro ha
          rw [List.find?_cons_of_neg _ hm] at ha
          have hcontr := (position_eq_none_iff matcher xs).mpr ha
          rw [hp] at hcontr
          exact absurd hcontr (by simp)

/-- C7 witness: `c7_remove_matching` at the queue `[1, 2, 3]` matching on
`2`: the first match is returned and removed, the others keep their
order. -/
theorem c7_remove_matching_witness :
    (removeMatching (fun m => m == 2) [1, 2, 3]).1
      = List.find? (fun m => m == 2) [(1 : Nat), 2, 3] ∧
    ([(1 : Nat), 2, 3]).Perm (2 :: (removeMatching (fun m => m == 2) [1, 2, 3]).2) := by
  have h := c7_remove_matching (fun m : Nat => m == 2) [1, 2, 3]
  exact ⟨h.1, h.2.2.1 2 (by decide)⟩

/-! ## Claim C6: the inbox never refuses or drops a signal -/

/-- Draining moves signals between ring and overflow without losing or
reordering any. -/
theorem drain_concat (ov : List α) : ∀ ring : List α,
    (drainOverflow ring ov).1 ++ (drainOverflow ring ov).2 = ring ++ ov := by
  induction ov with
  | nil => intro ring; simp [drainOverflow]
  | cons item rest ih =>
    intro ring
    by_cases hfull : QUEUE_SIZE ≤ ring.length
    · simp [drainOverflow, queuePush, hfull]
    · simp [drainOverflow, queuePush, hfull, ih (ring ++ [item])]

/-- Draining never removes the element at the front of the ring. -/
theorem drain_ring_cons (ov : List α) : ∀ (t0 : List α) (y : α),
    ∃ t, (drainOverflow (y :: t0) ov).1 = y :: t := by
  induction ov with
  | nil => intro t0 y; exact ⟨t0, rfl⟩
  | cons item rest ih =>
    intro t0 y
    by_cases hfull : QUEUE_SIZE ≤ (y :: t0).length
    · have hfull' : QUEUE_SIZE ≤ t0.length + 1 := by simpa using hfull
      exact ⟨t0, by simp [drainOverflow, queuePush, hfull']⟩
    · obtain ⟨t, ht⟩ := ih (t0 ++ [item]) y
      refine ⟨t, ?_⟩
      simp only [drainOverflow, queuePush, hfull, if_neg hfull]
      simpa using ht

/-- `Inbox::pop` returns exactly the head of the inbox contents (ring
first, then overflow) and leaves the tail. -/
theorem inbox_pop_spec (ib : Inbox α) :
    (Inbox.pop ib).1 = ib.contents.head? ∧
    (Inbox.pop ib).2.contents = ib.contents.tail := by
  obtain ⟨ring, ov⟩ := ib
  cases ring with
  | cons x r => simp [Inbox.pop, queuePop, Inbox.contents]
  | nil =>
    cases ov with
    | nil => simp [Inbox.pop, queuePop, Inbox.contents]
    | cons x rest =>
      have hpush : queuePush ([] : List α) x = .ok [x] := by
        simp [queuePush, QUEUE_SIZE]
      obtain ⟨t, ht⟩ := drain_ring_cons rest ([] : List α) x
      have hcc := drain_concat rest [x]
      rcases hdr : drainOverflow [x] rest with ⟨r', o'⟩
      rw [hdr] at ht hcc
      dsimp only at ht hcc
      subst ht
      have hto : t ++ o' = rest := by
        simpa using hcc
      simp [Inbox.pop, queuePop, Inbox.contents, drainOverflow, hpush, hdr, hto]

/-- Popping as many times as there are stored signals returns exactly the
inbox contents. -/
theorem inbox_popAll_spec (n : Nat) : ∀ ib : Inbox α,
    ib.contents.length ≤ n → Inbox.popAll n ib = ib.contents := by
  induction n with
  | zero =>
    intro ib h
    have hnil : ib.contents = [] := List.eq_nil_of_length_eq_zero (Nat.le_zero.mp h)
    simp [Inbox.popAll, hnil]
  | succ n ih =>
    intro ib h
    obtain ⟨h1, h2⟩ := inbox_pop_spec ib
    cases hc : ib.contents with
    | nil =>
      rw [hc] at h1
      rcases hp : Inbox.pop ib with ⟨res, ib'⟩
      rw [hp] at h1
      dsimp only at h1
      subst h1
      simp [Inbox.popAll, hp, hc]
    | cons x rest =>
      rw [hc] at h1 h2
      simp only [List.head?_cons, List.tail_cons] at h1 h2
      rcases hp : Inbox.pop ib with ⟨res, ib'⟩
      rw [hp] at h1 h2
      dsimp only at h1 h2
      subst h1
      have hlen : ib'.contents.length ≤ n := by
        rw [h2]
        have hlc := congrArg List.length hc
        simp at hlc
        omega
      simp [Inbox.popAll, hp, hc, h2, ih ib' hlen]

/-- C6: `Inbox::push` never fails and never drops a signal — the inbox
contents after a push are exactly the old contents plus the pushed signal
(it landed either in the ring or in the overflow) — and every stored
signal is returned by pop: popping `contents.length` times yields the full
contents. -/
theorem c6_inbox_never_drops {α : Type} (ib : Inbox α) (x : α) :
    (Inbox.push ib x).contents.Perm (ib.contents ++ [x]) ∧
    Inbox.popAll ib.contents.length ib = ib.contents := by
  constructor
  · obtain ⟨ring, ov⟩ := ib
    by_cases hfull : QUEUE_SIZE ≤ ring.length
    · simp [Inbox.push, queuePush, hfull, Inbox.contents]
    · simp only [Inbox.push, queuePush, hfull, if_neg hfull, Inbox.contents]
      have hperm : (ring ++ ([x] ++ ov)).Perm (ring ++ (ov ++ [x])) :=
        List.Perm.append_left ring List.perm_append_comm
      simpa using hperm
  · exact inbox_popAll_spec _ ib (Nat.le_refl _)

/-! ## Claim C1: exit fan-out delivers exactly one Exit per live link -/

/-- A pid is found in the registry exactly when it is among the entry
pids. -/
theorem lookup_isSome_iff (reg : List (RegEntry α)) (b : Pid) :
    (lookupReg reg b).isSome ↔ b ∈ reg.map (·.pid) := by
  induction reg with
  | nil => simp [lookupReg]
  | cons e rest ih =>
    by_cases he : e.pid = b
    · simp [lookupReg, he]
    · have he' : ¬ b = e.pid := fun hh => he hh.symm
      simp [lookupReg, he, he', ih]

/-- `send_signal` does not change the set of registered pids. -/
theorem pushSignal_pids (reg : List (RegEntry α)) (p : Pid) (sig : Signal α) :
    (pushSignal reg p sig).map (·.pid) = reg.map (·.pid) := by
  induction reg with
  | nil => rfl
  | cons e rest ih =>
    by_cases he : e.pid = p <;> simp [pushSignal, he, ih]

/-- Delivering a signal to `p` leaves every other pid's registry entry
unchanged. -/
theorem lookup_pushSignal_ne (reg : List (RegEntry α)) (p b : Pid)
    (sig : Signal α) (h : b ≠ p) :
    lookupReg (pushSignal reg p sig) b = lookupReg reg b := by
  induction reg with
  | nil => rfl
  | cons e rest ih =>
    have hpb : ¬ p = b := fun hh => h hh.symm
    by_cases hep : e.pid = p
    · simp [pushSignal, lookupReg, hep, hpb, ih]
    · by_cases heb : e.pid = b
      · have hbp : ¬ b = p := h
        simp [pushSignal, lookupReg, hep, heb, hbp]
      · simp [pushSignal, lookupReg, hep, heb, ih]

/-- Delivering a signal to a registered `b` appends exactly it to `b`'s
inbox. -/
theorem inboxOf_pushSignal_self (reg : List (RegEntry α)) (b : Pid)
    (sig : Signal α) (h : (lookupReg reg b).isSome) :
    inboxOf (pushSignal reg b sig) b = inboxOf reg b ++ [sig] := by
  induction reg with
  | nil => simp [lookupReg] at h
  | cons e rest ih =>
    by_cases heb : e.pid = b
    · simp [pushSignal, inboxOf, lookupReg, heb]
    · have h' : (lookupReg rest b).isSome := by
        simpa [lookupReg, heb] using h
      have hrest := ih h'
      simp only [inboxOf] at hrest
      simp [pushSignal, inboxOf, lookupReg, heb, hrest]

/-- Delivering a signal to `p ≠ b` leaves `b`'s inbox unchanged. -/
theorem inboxOf_pushSignal_ne (reg : List (RegEntry α)) (p b : Pid)
    (sig : Signal α) (h : b ≠ p) :
    inboxOf (pushSignal reg p sig) b = inboxOf reg b := by
  unfold inboxOf
  rw [lookup_pushSignal_ne reg p b sig h]

/-- `Registry::remove dying` does not affect lookups of other pids. -/
theorem lookup_removeReg_ne (reg : List (RegEntry α)) (dying b : Pid)
    (h : b ≠ dying) :
    lookupReg (removeReg reg dying) b = lookupReg reg b := by
  induction reg with
  | nil => rfl
  | cons e rest ih =>
    have hbd : ¬ b = dying := h
    have hdb : ¬ dying = b := fun hh => h hh.symm
    by_cases heb : e.pid = b
    · simp [removeReg, lookupReg, heb, hbd]
    · by_cases hed : e.pid = dying
      · simp [removeReg, lookupReg, heb, hed, hdb, ih]
      · simp [removeReg, lookupReg, heb, hed, ih]

/-- After `Registry::remove dying`, looking up `dying` misses. -/
theorem lookup_removeReg_self (reg : List (RegEntry α)) (dying : Pid) :
    lookupReg (removeReg reg dying) dying = none := by
  induction reg with
  | nil => rfl
  | cons e rest ih =>
    by_cases hed : e.pid = dying
    · simp [removeReg, hed, ih]
    · simp [removeReg, lookupReg, hed, ih]

/-- Walking the fan-out loop delivers one `Exit(dying, reason)` signal to a
registered pid `b` per occurrence of `b` in the remaining links, schedules
it that often, and never changes the set of registered pids. -/
theorem fanout_fold (dying : Pid) (reason : Exit) (b : Pid) :
    ∀ (links : List Pid) (reg : List (RegEntry α)) (sch : List Pid),
    (lookupReg reg b).isSome →
    ((links.foldl (fanoutStep dying reason) (reg, sch)).1.map (·.pid)
        = reg.map (·.pid)) ∧
    inboxOf (links.foldl (fanoutStep dying reason) (reg, sch)).1 b
        = inboxOf reg b ++ List.replicate (links.count b) (Signal.exit dying reason) ∧
    (links.foldl (fanoutStep dying reason) (reg, sch)).2.count b
        = sch.count b + links.count b := by
  intro links
  induction links with
  | nil => intro reg sch hb; simp
  | cons linked rest ih =>
    intro reg sch hb
    rw [List.foldl_cons]
    by_cases hl : (lookupReg reg linked).isSome
    · obtain ⟨e, he⟩ := Option.isSome_iff_exists.mp hl
      have hstep : fanoutStep dying reason (reg, sch) linked =
          (pushSignal reg linked (Signal.exit dying reason), sch ++ [linked]) := by
        unfold fanoutStep
        rw [he]
      rw [hstep]
      have hb' : (lookupReg (pushSignal reg linked (Signal.exit dying reason)) b).isSome := by
        rw [lookup_isSome_iff] at hb ⊢
        rwa [pushSignal_pids]
      obtain ⟨hpids, hinbox, hcount⟩ :=
        ih (pushSignal reg linked (Signal.exit dying reason)) (sch ++ [linked]) hb'
      refine ⟨by rw [hpids, pushSignal_pids], ?_, ?_⟩
      · rw [hinbox]
        by_cases hbl : linked = b
        · subst hbl
          rw [inboxOf_pushSignal_self reg linked _ hb]
          simp [List.count_cons_self, List.replicate_succ, List.append_assoc]
        · rw [inboxOf_pushSignal_ne reg linked b _ (Ne.symm hbl)]
          rw [List.count_cons_of_ne (Ne.symm hbl)]
      · rw [hcount]
        by_cases hbl : linked = b
        · subst hbl
          simp [List.count_cons_self]
          omega
        · simp [List.count_cons_of_ne (Ne.symm hbl), Ne.symm hbl]
    · have hnone : lookupReg reg linked = none := Option.not_isSome_iff_eq_none.mp hl
      have hstep : fanoutStep dying reason (reg, sch) linked = (reg, sch) := by
        unfold fanoutStep
        rw [hnone]
      rw [hstep]
      have hbl : linked ≠ b := fun h => hl (h ▸ hb)
      obtain ⟨hpids, hinbox, hcount⟩ := ih reg sch hb
      exact ⟨hpids,
        by rw [hinbox, List.count_cons_of_ne (Ne.symm hbl)],
        by rw [hcount, List.count_cons_of_ne (Ne.symm hbl)]⟩

/-- C1: when an actor terminates with reason `R` holding link snapshot `L`,
the termination path removes it from the registry and delivers exactly one
`Exit(dying, R)` signal to a pid `b` that occurs once in the snapshot and is
still registered, scheduling `b` exactly once: `b`'s inbox is extended by
precisely that one signal. -/
theorem c1_exit_fanout {α : Type} (reg : List (RegEntry α)) (dying b : Pid)
    (reason : Exit) (links : List Pid)
    (hne : b ≠ dying)
    (hmem : (lookupReg reg b).isSome)
    (hcount : links.count b = 1) :
    inboxOf (terminationFanout dying reason links reg).1 b
      = inboxOf reg b ++ [Signal.exit dying reason] ∧
    (terminationFanout dying reason links reg).2.count b = 1 ∧
    lookupReg (terminationFanout dying reason links reg).1 dying = none := by
  unfold terminationFanout
  have hb0 : (lookupReg (removeReg reg dying) b).isSome := by
    rw [lookup_removeReg_ne reg dying b hne]
    exact hmem
  obtain ⟨hpids, hinbox, hcount'⟩ :=
    fanout_fold dying reason b links (removeReg reg dying) [] hb0
  refine ⟨?_, ?_, ?_⟩
  · rw [hinbox, hcount]
    unfold inboxOf
    rw [lookup_removeReg_ne reg dying b hne]
    simp [List.replicate]
  · rw [hcount', hcount]
    simp
  · rw [← Option.not_isSome_iff_eq_none, lookup_isSome_iff, hpids,
      ← lookup_isSome_iff]
    simp [lookup_removeReg_self]

/-- C1 witness: `c1_exit_fanout` at a two-actor registry, with the link
snapshot holding one valid link and one empty (`Pid::invalid`) slot. -/
theorem c1_exit_fanout_witness :
    inboxOf (terminationFanout (α := Nat) ⟨1⟩ Exit.killed [⟨2⟩, Pid.invalid]
        [⟨⟨1⟩, []⟩, ⟨⟨2⟩, []⟩]).1 ⟨2⟩ = [Signal.exit ⟨1⟩ Exit.killed] ∧
    (terminationFanout (α := Nat) ⟨1⟩ Exit.killed [⟨2⟩, Pid.invalid]
        [⟨⟨1⟩, []⟩, ⟨⟨2⟩, []⟩]).2.count ⟨2⟩ = 1 ∧
    lookupReg (terminationFanout (α := Nat) ⟨1⟩ Exit.killed [⟨2⟩, Pid.invalid]
        [⟨⟨1⟩, []⟩, ⟨⟨2⟩, []⟩]).1 ⟨1⟩ = none := by
  have h := c1_exit_fanout (α := Nat) [⟨⟨1⟩, []⟩, ⟨⟨2⟩, []⟩] ⟨1⟩ ⟨2⟩ Exit.killed
    [⟨2⟩, Pid.invalid] (by decide) (by decide) (by decide)
  exact ⟨by simpa using h.1, h.2.1, h.2.2⟩

/-! ## Claim C3: the balancer on all-equal queue lengths -/

/-- C3 (code bug): when every worker's observed max queue length is equal,
`Scheduler::balance` does not leave all migration slots `none` — it
panics.  Every length `v` is below the target `v + 4`, so the first walk
never meets its exit condition, runs `i` past the end of the sorted list
and indexes out of bounds (`none` models the panic), with two equally
loaded workers and with three. -/
theorem c3_balance_equal_lengths_panics :
    balance [0, 0] = none ∧ balance [5, 5, 5] = none := by
  constructor
  · simp [balance, sortByLen, insertByLen, List.enum, List.enumFrom,
      balanceLoop1, Parameters.init]
  · simp [balance, sortByLen, insertByLen, List.enum, List.enumFrom,
      balanceLoop1, Parameters.init]

/-! ## Claim C5: a pid sits in at most one run queue -/

/-- Replacing queue `w` trades its contribution to the global occurrence
count for the new queue's contribution. -/
theorem sum_count_set (p : Pid) : ∀ (l : List (List Pid)) (w : Nat), w < l.length →
    ∀ q : List Pid,
    ((l.set w q).map (fun x => x.count p)).sum + (l.getD w []).count p
      = (l.map (fun x => x.count p)).sum + q.count p := by
  intro l
  induction l with
  | nil => intro w hw; exact absurd hw (by simp)
  | cons x xs ih =>
    intro w hw q
    cases w with
    | zero => simp [List.getD]; omega
    | succ w =>
      have hw' : w < xs.length := by simpa using hw
      have hx := ih w hw' q
      simp [List.getD] at hx ⊢
      omega

/-- Occurrences of `q` in the one-element list `[p]`. -/
theorem count_single (p q : Pid) :
    ([p].count q) = if p = q then 1 else 0 := by
  by_cases hpq : p = q
  · subst hpq; simp
  · have hqp : ¬ q = p := fun h => hpq h.symm
    simp [hpq, hqp, List.count_cons]

/-- Occurrences of `q` in `p :: l`. -/
theorem count_cons_pid (p q : Pid) (l : List Pid) :
    ((p :: l).count q) = l.count q + (if p = q then 1 else 0) := by
  by_cases hpq : p = q
  · subst hpq; simp [List.count_cons_self]
  · have hqp : ¬ q = p := fun h => hpq h.symm
    simp [hpq, hqp, List.count_cons]

/-- Every scheduling-discipline step preserves the invariant. -/
theorem sched_step_inv {s s' : SchedState} (hinv : SchedInv s)
    (hstep : SchedStep s s') : SchedInv s' := by
  obtain ⟨hnd, hcounts⟩ := hinv
  cases hstep with
  | scheduleWin p w hw hp =>
    refine ⟨List.nodup_cons.mpr ⟨hp, hnd⟩, fun q => ?_⟩
    have hq1 : (s.queues.map (fun x => x.count q)).sum + s.held.count q ≤ 1 :=
      (hcounts q).1
    have hq2 : q ∉ s.scheduled →
        (s.queues.map (fun x => x.count q)).sum + s.held.count q = 0 :=
      (hcounts q).2
    have hp0 : (s.queues.map (fun x => x.count p)).sum + s.held.count p = 0 :=
      (hcounts p).2 hp
    have hset := sum_count_set q s.queues w hw (s.queues.getD w [] ++ [p])
    rw [List.count_append, count_single p q] at hset
    have hgoal : totalCount ⟨p :: s.scheduled, appendAt s.queues w p, s.held⟩ q
        = ((s.queues.set w (s.queues.getD w [] ++ [p])).map
            (fun x => x.count q)).sum + s.held.count q := rfl
    constructor
    · rw [hgoal]
      by_cases hpq : p = q
      · subst hpq
        rw [if_pos rfl] at hset
        omega
      · rw [if_neg hpq] at hset
        omega
    · intro hmem
      rw [hgoal]
      have hqp : ¬ p = q := fun h => hmem (h ▸ List.mem_cons_self p s.scheduled)
      have hqs : q ∉ s.scheduled := fun hc => hmem (List.mem_cons_of_mem _ hc)
      have hz := hq2 hqs
      rw [if_neg hqp] at hset
      omega
  | scheduleWinNoWorker p hp =>
    refine ⟨List.nodup_cons.mpr ⟨hp, hnd⟩, fun q => ?_⟩
    have hq := hcounts q
    exact ⟨hq.1, fun hmem => hq.2 (fun hc => hmem (List.mem_cons_of_mem _ hc))⟩
  | scheduleLose p hp =>
    exact ⟨hnd, hcounts⟩
  | popForRun w hw p rest hq =>
    refine ⟨hnd, fun q => ?_⟩
    have hq1 : (s.queues.map (fun x => x.count q)).sum + s.held.count q ≤ 1 :=
      (hcounts q).1
    have hq2 : q ∉ s.scheduled →
        (s.queues.map (fun x => x.count q)).sum + s.held.count q = 0 :=
      (hcounts q).2
    have hset := sum_count_set q s.queues w hw rest
    rw [hq, count_cons_pid] at hset
    have hgoal : totalCount ⟨s.scheduled, s.queues.set w rest, p :: s.held⟩ q
        = ((s.queues.set w rest).map (fun x => x.count q)).sum
          + (p :: s.held).count q := rfl
    have hheld : (p :: s.held).count q = s.held.count q + (if p = q then 1 else 0) :=
      count_cons_pid p q s.held
    constructor
    · rw [hgoal, hheld]
      by_cases hpq : p = q
      · rw [if_pos hpq] at hset ⊢
        omega
      · rw [if_neg hpq] at hset ⊢
        omega
    · intro hmem
      rw [hgoal, hheld]
      have hz := hq2 hmem
      by_cases hpq : p = q
      · rw [if_pos hpq] at hset ⊢
        omega
      · rw [if_neg hpq] at hset ⊢
        omega
  | runActor p hp =>
    refine ⟨hnd.erase p, fun q => ?_⟩
    have hq1 : (s.queues.map (fun x => x.count q)).sum + s.held.count q ≤ 1 :=
      (hcounts q).1
    have hq2 : q ∉ s.scheduled →
        (s.queues.map (fun x => x.count q)).sum + s.held.count q = 0 :=
      (hcounts q).2
    have hp1 : (s.queues.map (fun x => x.count p)).sum + s.held.count p ≤ 1 :=
      (hcounts p).1
    have hpin : 0 < s.held.count p := List.count_pos_iff.mpr hp
    have hgoal : totalCount ⟨s.scheduled.erase p, s.queues, s.held.erase p⟩ q
        = (s.queues.map (fun x => x.count q)).sum + (s.held.erase p).count q := rfl
    by_cases hpq : p = q
    · subst hpq
      have herase : (s.held.erase p).count p = s.held.count p - 1 :=
        List.count_erase_self p s.held
      exact ⟨by rw [hgoal, herase]; omega, fun _ => by rw [hgoal, herase]; omega⟩
    · have hqp : q ≠ p := fun h => hpq h.symm
      have herase : (s.held.erase p).count q = s.held.count q :=
        List.count_erase_of_ne hqp s.held
      constructor
      · rw [hgoal, herase]
        exact hq1
      · intro hmem
        rw [hgoal, herase]
        exact hq2 (fun hc => hmem ((List.mem_erase_of_ne hqp).mpr hc))
  | migrate w₁ w₂ hw₁ hw₂ p rest hq =>
    refine ⟨hnd, fun q => ?_⟩
    have hq1 : (s.queues.map (fun x => x.count q)).sum + s.held.count q ≤ 1 :=
      (hcounts q).1
    have hq2 : q ∉ s.scheduled →
        (s.queues.map (fun x => x.count q)).sum + s.held.count q = 0 :=
      (hcounts q).2
    have hset1 := sum_count_set q s.queues w₁ hw₁ rest
    rw [hq, count_cons_pid] at hset1
    have hw₂' : w₂ < (s.queues.set w₁ rest).length := by simpa using hw₂
    have hset2 := sum_count_set q (s.queues.set w₁ rest) w₂ hw₂'
      ((s.queues.set w₁ rest).getD w₂ [] ++ [p])
    rw [List.count_append, count_single p q] at hset2
    have hgoal : totalCount
        ⟨s.scheduled, appendAt (s.queues.set w₁ rest) w₂ p, s.held⟩ q
        = (((s.queues.set w₁ rest).set w₂
              ((s.queues.set w₁ rest).getD w₂ [] ++ [p])).map
            (fun x => x.count q)).sum + s.held.count q := rfl
    constructor
    · rw [hgoal]
      by_cases hpq : p = q
      · rw [if_pos hpq] at hset1 hset2
        omega
      · rw [if_neg hpq] at hset1 hset2
        omega
    · intro hmem
      rw [hgoal]
      have hz := hq2 hmem
      by_cases hpq : p = q
      · rw [if_pos hpq] at hset1 hset2
        omega
      · rw [if_neg hpq] at hset1 hset2
        omega


/-- The boot state satisfies the invariant. -/
theorem sched_init_inv (n : Nat) : SchedInv ⟨[], List.replicate n [], []⟩ := by
  refine ⟨List.nodup_nil, fun p => ?_⟩
  have hzero : countQ ⟨[], List.replicate n [], []⟩ p = 0 := by
    simp [countQ, List.map_replicate]
  unfold totalCount
  rw [hzero]
  simp

/-- Every reachable scheduling state satisfies the invariant. -/
theorem sched_reachable_inv {s : SchedState} (h : SchedReachable s) : SchedInv s := by
  induction h with
  | init n => exact sched_init_inv n
  | step _ hstep ih => exact sched_step_inv ih hstep

/-- C5: under the `is_scheduled` discipline — `schedule` pushes only after
winning the false-to-true swap, and `run_actor` clears the flag before
polling — every reachable state has each pid in at most one run queue
(counting all occurrences across all queues). -/
theorem c5_at_most_one_run_queue (s : SchedState) (h : SchedReachable s)
    (p : Pid) : countQ s p ≤ 1 := by
  have hinv := sched_reachable_inv h
  have htot := (hinv.2 p).1
  unfold totalCount at htot
  omega

/-- C5 witness: `c5_at_most_one_run_queue` at the two-worker boot state. -/
theorem c5_at_most_one_run_queue_witness :
    countQ ⟨[], List.replicate 2 [], []⟩ ⟨0⟩ ≤ 1 :=
  c5_at_most_one_run_queue ⟨[], List.replicate 2 [], []⟩ (SchedReachable.init 2) ⟨0⟩

end Kerosene
